import Mathlib

/-!
Verification of the blend-optimizer core of `src/app.js` (slagging predictor).

The JavaScript numerics are modelled over `ℚ` (the formulas' decimal
constants are exact decimals), percentages over `ℤ`, and absent or
non-numeric JSON fields as `Option ℚ` (`none` stands for a value whose
`Number(...)` coercion is not finite, which the source replaces by a
default).
-/

set_option linter.unusedVariables false

/-- The 9 canonical oxide values, in the fixed order used by `calculateAFT`:
SiO2, Al2O3, Fe2O3, CaO, MgO, Na2O, K2O, SO3, TiO2. -/
structure Oxide9 where
  SiO2 : ℚ
  Al2O3 : ℚ
  Fe2O3 : ℚ
  CaO : ℚ
  MgO : ℚ
  Na2O : ℚ
  K2O : ℚ
  SO3 : ℚ
  TiO2 : ℚ
deriving DecidableEq

/-- `calculateAFT` from `src/app.js` lines 461-480: piecewise linear
regression branching on `sumSiAl = SiO2 + Al2O3`. -/
def calculateAFT (v : Oxide9) : ℚ :=
  let sumSiAl := v.SiO2 + v.Al2O3
  if sumSiAl < 55 then
    1245 + 1.1 * v.SiO2 + 0.95 * v.Al2O3 - 2.5 * v.Fe2O3 - 2.98 * v.CaO - 4.5 * v.MgO -
      7.89 * (v.Na2O + v.K2O) - 1.7 * v.SO3 - 0.63 * v.TiO2
  else if 55 ≤ sumSiAl ∧ sumSiAl < 75 then
    1323 + 1.45 * v.SiO2 + 0.683 * v.Al2O3 - 2.39 * v.Fe2O3 - 3.1 * v.CaO - 4.5 * v.MgO -
      7.49 * (v.Na2O + v.K2O) - 2.1 * v.SO3 - 0.63 * v.TiO2
  else
    1395 + 1.2 * v.SiO2 + 0.9 * v.Al2O3 - 2.5 * v.Fe2O3 - 3.1 * v.CaO - 4.5 * v.MgO -
      7.2 * (v.Na2O + v.K2O) - 1.7 * v.SO3 - 0.63 * v.TiO2

/-- Regime-1 formula of the spec's AFT table (`sumSiAl < 55`). -/
def aftRegime1 (v : Oxide9) : ℚ :=
  1245 + 1.1 * v.SiO2 + 0.95 * v.Al2O3 - 2.5 * v.Fe2O3 - 2.98 * v.CaO - 4.5 * v.MgO -
    7.89 * (v.Na2O + v.K2O) - 1.7 * v.SO3 - 0.63 * v.TiO2

/-- Regime-2 formula of the spec's AFT table (`55 ≤ sumSiAl < 75`). -/
def aftRegime2 (v : Oxide9) : ℚ :=
  1323 + 1.45 * v.SiO2 + 0.683 * v.Al2O3 - 2.39 * v.Fe2O3 - 3.1 * v.CaO - 4.5 * v.MgO -
    7.49 * (v.Na2O + v.K2O) - 2.1 * v.SO3 - 0.63 * v.TiO2

/-- Regime-3 formula of the spec's AFT table (`sumSiAl ≥ 75`). -/
def aftRegime3 (v : Oxide9) : ℚ :=
  1395 + 1.2 * v.SiO2 + 0.9 * v.Al2O3 - 2.5 * v.Fe2O3 - 3.1 * v.CaO - 4.5 * v.MgO -
    7.2 * (v.Na2O + v.K2O) - 1.7 * v.SO3 - 0.63 * v.TiO2

/-- C1: `calculateAFT` returns the regime-1 formula when `SiO2 + Al2O3 < 55`,
the regime-2 formula when `55 ≤ SiO2 + Al2O3 < 75` (in particular at the
boundary `SiO2 + Al2O3 = 55` exactly), and the regime-3 formula when
`SiO2 + Al2O3 ≥ 75`. -/
theorem calculateAFT_piecewise (v : Oxide9) :
    (v.SiO2 + v.Al2O3 < 55 → calculateAFT v = aftRegime1 v) ∧
    (55 ≤ v.SiO2 + v.Al2O3 ∧ v.SiO2 + v.Al2O3 < 75 → calculateAFT v = aftRegime2 v) ∧
    (75 ≤ v.SiO2 + v.Al2O3 → calculateAFT v = aftRegime3 v) := by
  refine ⟨fun h1 => ?_, fun h2 => ?_, fun h3 => ?_⟩
  · simp only [calculateAFT, aftRegime1, if_pos h1]
  · have hn : ¬ v.SiO2 + v.Al2O3 < 55 := not_lt.mpr h2.1
    simp only [calculateAFT, aftRegime2, if_neg hn, if_pos h2]
  · have hn : ¬ v.SiO2 + v.Al2O3 < 55 := not_lt.mpr (by linarith)
    have hn2 : ¬ (55 ≤ v.SiO2 + v.Al2O3 ∧ v.SiO2 + v.Al2O3 < 75) :=
      fun hc => absurd h3 (not_le.mpr hc.2)
    simp only [calculateAFT, aftRegime3, if_neg hn, if_neg hn2]

/-- C1 witness: at an oxide vector with `SiO2 + Al2O3 = 55` exactly
(the low boundary of regime 2), the regime-2 formula applies. -/
theorem calculateAFT_piecewise_witness :
    calculateAFT ⟨30, 25, 1, 1, 1, 1, 1, 1, 1⟩ = aftRegime2 ⟨30, 25, 1, 1, 1, 1, 1, 1, 1⟩ :=
  (calculateAFT_piecewise ⟨30, 25, 1, 1, 1, 1, 1, 1, 1⟩).2.1 (by norm_num)

/-- Integer values `mn, mn+1, ..., mx` (empty when `mx < mn`): the sequence
visited by `for (let v = min; v <= max; v += 1)`. -/
def rangeInts (mn mx : ℤ) : List ℤ :=
  (List.range (mx + 1 - mn).toNat).map (fun (i : ℕ) => mn + (i : ℤ))

/-- Sum of the lower bounds of a list of `[min, max]` pairs
(`remainingMin` in the source). -/
def sumFst (t : List (ℤ × ℤ)) : ℤ := (t.map Prod.fst).sum

/-- Sum of the upper bounds of a list of `[min, max]` pairs
(`remainingMax` in the source). -/
def sumSnd (t : List (ℤ × ℤ)) : ℤ := (t.map Prod.snd).sum

/-- The pruned depth-first generator `generateCombinations` of the live
`/optimize` route (`src/app.js` lines 1175-1200), with the remaining bounds
as the recursion list and `acc` the accumulated prefix.  At the final
position the value is forced to `100 - sum(acc)`; at earlier positions the
`break` on `sumSoFar > 100` is the `takeWhile`, and the two `continue`
prunes are the disjunction guard. -/
def genPruned : List (ℤ × ℤ) → List ℤ → List (List ℤ)
  | [], _ => []
  | [(mn, mx)], acc =>
      if mn ≤ 100 - acc.sum ∧ 100 - acc.sum ≤ mx then [acc ++ [100 - acc.sum]] else []
  | (mn, mx) :: b :: rest, acc =>
      ((rangeInts mn mx).takeWhile (fun v => decide (acc.sum + v ≤ 100))).flatMap
        (fun v =>
          if acc.sum + v + sumSnd (b :: rest) < 100 ∨ 100 < acc.sum + v + sumFst (b :: rest) then
            []
          else
            genPruned (b :: rest) (acc ++ [v]))

/-- Entry point of the pruned generator: `generateCombinations(minMaxBounds)`. -/
def generateCombinations (bounds : List (ℤ × ℤ)) : List (List ℤ) :=
  genPruned bounds []

/-- The naive generator `generateCombinations(bounds, step)` of the second
`/optimize` route (`src/app.js` lines 1683-1697) at `step = 1`: full
cross-product of every `[min, max]` range, keeping a combination only when
its total is exactly 100. -/
def genNaive : List (ℤ × ℤ) → List ℤ → List (List ℤ)
  | [], combo => if combo.sum = 100 then [combo] else []
  | (mn, mx) :: rest, combo =>
      (rangeInts mn mx).flatMap (fun v => genNaive rest (combo ++ [v]))

/-- Entry point of the naive generator. -/
def generateCombinationsNaive (bounds : List (ℤ × ℤ)) : List (List ℤ) :=
  genNaive bounds []

example : generateCombinations [(50, 50), (50, 50)] = [[50, 50]] := by decide
example : generateCombinations [(60, 60), (60, 60)] = [] := by decide
example : generateCombinations [(40, 60), (0, 100), (0, 1)] =
    generateCombinationsNaive [(40, 60), (0, 100), (0, 1)] := by decide

/-- Membership in the loop range: exactly the integers between the two bounds. -/
theorem mem_rangeInts {mn mx v : ℤ} : v ∈ rangeInts mn mx ↔ mn ≤ v ∧ v ≤ mx := by
  unfold rangeInts
  rw [List.mem_map]
  constructor
  · rintro ⟨i, hi, rfl⟩
    rw [List.mem_range] at hi
    omega
  · rintro ⟨h1, h2⟩
    exact ⟨(v - mn).toNat, List.mem_range.mpr (by omega), by omega⟩

/-- Every combination produced by the pruned generator sums to exactly 100
(the partial sums cancel against the forced last value). -/
theorem genPruned_sum (bounds : List (ℤ × ℤ)) (acc : List ℤ) :
    ∀ r ∈ genPruned bounds acc, r.sum = 100 := by
  induction bounds, acc using genPruned.induct with
  | case1 acc =>
    intro r hr
    simp [genPruned] at hr
  | case2 mn mx acc h =>
    intro r hr
    simp only [genPruned] at hr
    rw [if_pos h, List.mem_singleton] at hr
    subst hr
    rw [List.sum_append, List.sum_cons, List.sum_nil]
    omega
  | case3 mn mx acc h =>
    intro r hr
    simp only [genPruned] at hr
    rw [if_neg h] at hr
    simp at hr
  | case4 mn mx b rest acc ih =>
    intro r hr
    simp only [genPruned] at hr
    rcases List.mem_flatMap.mp hr with ⟨v, hv, hr2⟩
    split at hr2
    · simp at hr2
    · exact ih v r hr2

/-- Every combination produced by the pruned generator extends the
accumulator by a suffix that respects the given bounds positionwise. -/
theorem genPruned_shape (bounds : List (ℤ × ℤ)) (acc : List ℤ) :
    ∀ r ∈ genPruned bounds acc,
      ∃ suf, r = acc ++ suf ∧ List.Forall₂ (fun p (x : ℤ) => p.1 ≤ x ∧ x ≤ p.2) bounds suf := by
  induction bounds, acc using genPruned.induct with
  | case1 acc =>
    intro r hr
    simp [genPruned] at hr
  | case2 mn mx acc h =>
    intro r hr
    simp only [genPruned] at hr
    rw [if_pos h, List.mem_singleton] at hr
    exact ⟨[100 - acc.sum], hr, List.Forall₂.cons ⟨h.1, h.2⟩ List.Forall₂.nil⟩
  | case3 mn mx acc h =>
    intro r hr
    simp only [genPruned] at hr
    rw [if_neg h] at hr
    simp at hr
  | case4 mn mx b rest acc ih =>
    intro r hr
    simp only [genPruned] at hr
    rcases List.mem_flatMap.mp hr with ⟨v, hv, hr2⟩
    have hvr : v ∈ rangeInts mn mx := (List.takeWhile_sublist _).subset hv
    split at hr2
    · simp at hr2
    · rcases ih v r hr2 with ⟨suf, hsuf, hf⟩
      refine ⟨v :: suf, ?_, List.Forall₂.cons (mem_rangeInts.mp hvr) hf⟩
      simp [hsuf]

/-- C2: for every non-empty list of bounds pairs, every percentage vector
yielded by the combination enumerator (including the forced value at the
final position, `100` minus the partial sum) sums to exactly 100. -/
theorem generateCombinations_sum_eq_100 (bounds : List (ℤ × ℤ)) (hne : bounds ≠ [])
    (r : List ℤ) (hr : r ∈ generateCombinations bounds) : r.sum = 100 :=
  genPruned_sum bounds [] r hr

/-- C2 witness: `[50, 50]` is yielded for the bounds `[(50,50),(50,50)]`
and indeed sums to 100. -/
theorem generateCombinations_sum_eq_100_witness :
    ([(50, 50), (50, 50)] : List (ℤ × ℤ)) ≠ [] ∧ ([50, 50] : List ℤ).sum = 100 :=
  ⟨by decide,
    generateCombinations_sum_eq_100 [(50, 50), (50, 50)] (by decide) [50, 50] (by decide)⟩

/-- C3: for every non-empty list of bounds pairs, every percentage vector
yielded by the combination enumerator satisfies `min_i ≤ p_i ≤ max_i` at
every position, the forced last position included. -/
theorem generateCombinations_within_bounds (bounds : List (ℤ × ℤ)) (hne : bounds ≠ [])
    (r : List ℤ) (hr : r ∈ generateCombinations bounds) :
    List.Forall₂ (fun p (x : ℤ) => p.1 ≤ x ∧ x ≤ p.2) bounds r := by
  rcases genPruned_shape bounds [] r hr with ⟨suf, hsuf, hf⟩
  simpa [hsuf] using hf

/-- C3 witness: the yielded vector `[45, 55]` lies within the bounds
`[(40,60),(40,60)]` positionwise. -/
theorem generateCombinations_within_bounds_witness :
    List.Forall₂ (fun p (x : ℤ) => p.1 ≤ x ∧ x ≤ p.2) [(40, 60), (40, 60)] [45, 55] :=
  generateCombinations_within_bounds [(40, 60), (40, 60)] (by decide) [45, 55] (by decide)

/-- The loop range is ascending. -/
theorem rangeInts_pairwise (mn mx : ℤ) : (rangeInts mn mx).Pairwise (· ≤ ·) := by
  unfold rangeInts
  rw [List.pairwise_map]
  exact (List.pairwise_lt_range _).imp (fun h => by omega)

/-- On an ascending list, `takeWhile` with a downward-closed predicate is
the same as `filter`: what the `break` skips, the filter drops too. -/
theorem takeWhile_eq_filter_of_drop {p : ℤ → Bool} {l : List ℤ}
    (hl : l.Pairwise (· ≤ ·)) (hp : ∀ a b : ℤ, a ≤ b → p b = true → p a = true) :
    l.takeWhile p = l.filter p := by
  induction l with
  | nil => rfl
  | cons x xs ih =>
    rcases List.pairwise_cons.mp hl with ⟨hx, hxs⟩
    rw [List.takeWhile_cons, List.filter_cons]
    by_cases hpx : p x = true
    · rw [if_pos hpx, if_pos hpx, ih hxs]
    · rw [if_neg hpx, if_neg hpx]
      have hnil : xs.filter p = [] :=
        List.filter_eq_nil_iff.mpr (fun a ha hpa => hpx (hp x a (hx a ha) hpa))
      rw [hnil]

/-- Dropping list elements on which `f` is empty does not change `flatMap`. -/
theorem flatMap_filter_of_nil {l : List ℤ} {p : ℤ → Bool} {f : ℤ → List (List ℤ)}
    (h : ∀ v ∈ l, p v = false → f v = []) : (l.filter p).flatMap f = l.flatMap f := by
  induction l with
  | nil => rfl
  | cons x xs ih =>
    rw [List.filter_cons]
    by_cases hpx : p x = true
    · rw [if_pos hpx, List.flatMap_cons, List.flatMap_cons,
        ih fun v hv => h v (List.mem_cons_of_mem x hv)]
    · rw [if_neg hpx, List.flatMap_cons,
        h x (List.mem_cons_self x xs) (Bool.not_eq_true _ ▸ hpx), List.nil_append,
        ih fun v hv => h v (List.mem_cons_of_mem x hv)]

/-- If even taking every remaining maximum cannot reach 100, the naive
generator produces nothing. -/
theorem genNaive_eq_nil_of_low (t : List (ℤ × ℤ)) (acc : List ℤ)
    (h : acc.sum + sumSnd t < 100) : genNaive t acc = [] := by
  induction t generalizing acc with
  | nil =>
    simp only [genNaive]
    rw [if_neg]
    simp only [sumSnd, List.map_nil, List.sum_nil] at h
    omega
  | cons b rest ih =>
    rcases b with ⟨mn, mx⟩
    simp only [genNaive]
    refine List.flatMap_eq_nil_iff.mpr ?_
    intro v hv
    refine ih (acc ++ [v]) ?_
    have hvmx : v ≤ mx := (mem_rangeInts.mp hv).2
    simp only [sumSnd, List.map_cons, List.sum_cons] at h
    rw [List.sum_append, List.sum_cons, List.sum_nil]
    simp only [sumSnd]
    omega

/-- If even taking every remaining minimum already passes 100, the naive
generator produces nothing. -/
theorem genNaive_eq_nil_of_high (t : List (ℤ × ℤ)) (acc : List ℤ)
    (h : 100 < acc.sum + sumFst t) : genNaive t acc = [] := by
  induction t generalizing acc with
  | nil =>
    simp only [genNaive]
    rw [if_neg]
    simp only [sumFst, List.map_nil, List.sum_nil] at h
    omega
  | cons b rest ih =>
    rcases b with ⟨mn, mx⟩
    simp only [genNaive]
    refine List.flatMap_eq_nil_iff.mpr ?_
    intro v hv
    refine ih (acc ++ [v]) ?_
    have hvmn : mn ≤ v := (mem_rangeInts.mp hv).1
    simp only [sumFst, List.map_cons, List.sum_cons] at h
    rw [List.sum_append, List.sum_cons, List.sum_nil]
    simp only [sumFst]
    omega

/-- The loop range has no duplicates. -/
theorem rangeInts_nodup (mn mx : ℤ) : (rangeInts mn mx).Nodup := by
  unfold rangeInts
  refine List.Nodup.map ?_ (List.nodup_range _)
  intro a c hac
  have hac2 : mn + (a : ℤ) = mn + (c : ℤ) := hac
  omega

/-- Pointwise-equal functions give equal `flatMap`s. -/
theorem flatMap_congr_mem (l : List ℤ) (f g : ℤ → List (List ℤ))
    (h : ∀ v ∈ l, f v = g v) : l.flatMap f = l.flatMap g := by
  induction l with
  | nil => rfl
  | cons x xs ih =>
    simp only [List.flatMap_cons]
    rw [h x (List.mem_cons_self x xs), ih fun v hv => h v (List.mem_cons_of_mem x hv)]

/-- A `flatMap` that emits a singleton at exactly one value collapses to a
membership test when the list has no duplicates. -/
theorem flatMap_if_single {l : List ℤ} {L : ℤ} {g : ℤ → List ℤ} (hnd : l.Nodup) :
    (l.flatMap fun v => if v = L then [g v] else []) = if L ∈ l then [g L] else [] := by
  induction l with
  | nil => simp
  | cons x xs ih =>
    rcases List.nodup_cons.mp hnd with ⟨hx, hxs⟩
    rw [List.flatMap_cons]
    by_cases hxL : x = L
    · subst hxL
      rw [if_pos rfl, if_pos (List.mem_cons_self x xs)]
      have hrest : (xs.flatMap fun v => if v = x then [g v] else []) = [] :=
        List.flatMap_eq_nil_iff.mpr (fun v hv => if_neg (fun hvx => hx (by rwa [hvx] at hv)))
      rw [hrest]
      simp
    · rw [if_neg hxL, List.nil_append, ih hxs]
      by_cases hL : L ∈ xs
      · rw [if_pos hL, if_pos (List.mem_cons_of_mem x hL)]
      · rw [if_neg hL, if_neg (fun hc => (List.mem_cons.mp hc).elim (fun h1 => hxL h1.symm) hL)]

/-- On a single-coal bounds list, the naive generator also yields exactly the
forced value `100 - sum(acc)` when it is within bounds, and nothing
otherwise. -/
theorem genNaive_singleton (mn mx : ℤ) (acc : List ℤ) :
    genNaive [(mn, mx)] acc =
      if mn ≤ 100 - acc.sum ∧ 100 - acc.sum ≤ mx then [acc ++ [100 - acc.sum]] else [] := by
  have h0 : genNaive [(mn, mx)] acc =
      (rangeInts mn mx).flatMap (fun v => if (acc ++ [v]).sum = 100 then [acc ++ [v]] else []) :=
    rfl
  rw [h0]
  have h1 : (rangeInts mn mx).flatMap
        (fun v => if (acc ++ [v]).sum = 100 then [acc ++ [v]] else []) =
      (rangeInts mn mx).flatMap (fun v => if v = 100 - acc.sum then [acc ++ [v]] else []) := by
    refine flatMap_congr_mem _ _ _ ?_
    intro v hv
    show (if (acc ++ [v]).sum = 100 then [acc ++ [v]] else []) =
      if v = 100 - acc.sum then [acc ++ [v]] else []
    rw [List.sum_append, List.sum_cons, List.sum_nil]
    by_cases hveq : v = 100 - acc.sum
    · rw [if_pos (by omega), if_pos hveq]
    · rw [if_neg (by omega), if_neg hveq]
  rw [h1, flatMap_if_single (rangeInts_nodup mn mx)]
  by_cases hmem : mn ≤ 100 - acc.sum ∧ 100 - acc.sum ≤ mx
  · rw [if_pos (mem_rangeInts.mpr hmem), if_pos hmem]
  · rw [if_neg (fun hc => hmem (mem_rangeInts.mp hc)), if_neg hmem]

/-- Nonnegative lower bounds have a nonnegative sum. -/
theorem sumFst_nonneg {t : List (ℤ × ℤ)} (h : ∀ p ∈ t, 0 ≤ p.1) : 0 ≤ sumFst t :=
  List.sum_nonneg (by
    intro x hx
    rcases List.mem_map.mp hx with ⟨p, hp, rfl⟩
    exact h p hp)

/-- On every non-empty bounds list whose lower ends are nonnegative (as the
sanitized bounds always are), the pruned generator produces exactly the
naive generator's sequence, in the same order. -/
theorem genPruned_eq_genNaive : ∀ (bounds : List (ℤ × ℤ)) (acc : List ℤ),
    bounds ≠ [] → (∀ p ∈ bounds, 0 ≤ p.1) → genPruned bounds acc = genNaive bounds acc := by
  intro bounds acc
  induction bounds, acc using genPruned.induct with
  | case1 acc =>
    intro hne hmin
    exact absurd rfl hne
  | case2 mn mx acc h =>
    intro hne hmin
    simp only [genPruned]
    rw [genNaive_singleton, if_pos h]
  | case3 mn mx acc h =>
    intro hne hmin
    simp only [genPruned]
    rw [genNaive_singleton, if_neg h]
  | case4 mn mx b rest acc ih =>
    intro hne hmin
    have hminTail : ∀ p ∈ b :: rest, 0 ≤ p.1 := fun p hp => hmin p (List.mem_cons_of_mem _ hp)
    have hmin0 : (0 : ℤ) ≤ sumFst (b :: rest) := sumFst_nonneg hminTail
    have hL : genPruned ((mn, mx) :: b :: rest) acc =
        ((rangeInts mn mx).takeWhile (fun v => decide (acc.sum + v ≤ 100))).flatMap
          (fun v =>
            if acc.sum + v + sumSnd (b :: rest) < 100 ∨ 100 < acc.sum + v + sumFst (b :: rest)
            then [] else genPruned (b :: rest) (acc ++ [v])) := rfl
    have hR : genNaive ((mn, mx) :: b :: rest) acc =
        (rangeInts mn mx).flatMap (fun v => genNaive (b :: rest) (acc ++ [v])) := rfl
    rw [hL, hR]
    rw [takeWhile_eq_filter_of_drop (rangeInts_pairwise mn mx)
      (fun a c hac hc => by
        simp only [decide_eq_true_eq] at hc ⊢
        omega)]
    have hnil : ∀ v ∈ rangeInts mn mx, (fun v => decide (acc.sum + v ≤ 100)) v = false →
        (fun v =>
          if acc.sum + v + sumSnd (b :: rest) < 100 ∨ 100 < acc.sum + v + sumFst (b :: rest)
          then ([] : List (List ℤ)) else genPruned (b :: rest) (acc ++ [v])) v = [] := by
      intro v hv hpv
      have hgt : ¬(acc.sum + v ≤ 100) := by simpa using hpv
      show (if acc.sum + v + sumSnd (b :: rest) < 100 ∨ 100 < acc.sum + v + sumFst (b :: rest)
        then ([] : List (List ℤ)) else genPruned (b :: rest) (acc ++ [v])) = []
      rw [if_pos (Or.inr (by omega))]
    rw [flatMap_filter_of_nil hnil]
    refine flatMap_congr_mem _ _ _ ?_
    intro v hv
    show (if acc.sum + v + sumSnd (b :: rest) < 100 ∨ 100 < acc.sum + v + sumFst (b :: rest)
      then ([] : List (List ℤ)) else genPruned (b :: rest) (acc ++ [v])) =
      genNaive (b :: rest) (acc ++ [v])
    by_cases hpr : acc.sum + v + sumSnd (b :: rest) < 100 ∨ 100 < acc.sum + v + sumFst (b :: rest)
    · rw [if_pos hpr]
      rcases hpr with hlo | hhi
      · refine (genNaive_eq_nil_of_low _ _ ?_).symm
        rw [List.sum_append, List.sum_cons, List.sum_nil]
        omega
      · refine (genNaive_eq_nil_of_high _ _ ?_).symm
        rw [List.sum_append, List.sum_cons, List.sum_nil]
        omega
    · rw [if_neg hpr]
      exact ih v (by simp) hminTail

/-- C4 counterexample: for the integer bounds `[(60,60),(60,60),(-30,-10)]`
the pruned enumerator yields nothing (its `break` fires once the partial sum
120 exceeds 100, although the negative-minimum coal could bring the total
back to 100), while the naive cross-product enumerator yields
`[[60, 60, -20]]`. -/
theorem generateCombinations_naive_cex :
    generateCombinations [(60, 60), (60, 60), (-30, -10)] ≠
      generateCombinationsNaive [(60, 60), (60, 60), (-30, -10)] := by decide

/-- C4 (amended): for every non-empty list of integer bounds pairs whose
lower bounds are nonnegative (which holds for every bounds list the
sanitizer produces), the pruned depth-first enumerator yields exactly the
same sequence of combinations, in the same order, as the naive enumerator
that iterates the full cross-product and keeps only vectors summing to
100. -/
theorem generateCombinations_eq_naive (bounds : List (ℤ × ℤ)) (hne : bounds ≠ [])
    (hmin : ∀ p ∈ bounds, 0 ≤ p.1) :
    generateCombinations bounds = generateCombinationsNaive bounds :=
  genPruned_eq_genNaive bounds [] hne hmin

/-- C4 witness: at the bounds `[(40,60),(40,60)]` the two enumerators agree. -/
theorem generateCombinations_eq_naive_witness :
    generateCombinations [(40, 60), (40, 60)] = generateCombinationsNaive [(40, 60), (40, 60)] :=
  generateCombinations_eq_naive [(40, 60), (40, 60)] (by decide) (by decide)

/-- A `BlendCandidate` as pushed onto `validBlends` (`src/app.js` lines
1219-1225): integer percentages, predicted AFT, cost, GCV and the blended
oxide vector. -/
structure Candidate where
  blend : List ℤ
  predicted_aft : ℚ
  cost : ℚ
  gcv : ℚ
  blended_oxides : Oxide9
deriving DecidableEq

/-- The all-zero oxide vector (the `reduce` accumulator start). -/
def Oxide9.zero : Oxide9 := ⟨0, 0, 0, 0, 0, 0, 0, 0, 0⟩

/-- Componentwise sum of oxide vectors. -/
def Oxide9.add (a b : Oxide9) : Oxide9 :=
  ⟨a.SiO2 + b.SiO2, a.Al2O3 + b.Al2O3, a.Fe2O3 + b.Fe2O3, a.CaO + b.CaO, a.MgO + b.MgO,
    a.Na2O + b.Na2O, a.K2O + b.K2O, a.SO3 + b.SO3, a.TiO2 + b.TiO2⟩

/-- Componentwise scaling of an oxide vector by a weight. -/
def Oxide9.scale (c : ℚ) (a : Oxide9) : Oxide9 :=
  ⟨c * a.SiO2, c * a.Al2O3, c * a.Fe2O3, c * a.CaO, c * a.MgO, c * a.Na2O, c * a.K2O,
    c * a.SO3, c * a.TiO2⟩

/-- `blendedOxides`: per oxide column, the weighted sum over all coals
(`oxideValues.reduce((sum, val, idx) => sum + val[oi] * weights[idx], 0)`). -/
def blendOxides (oxs : List Oxide9) (ws : List ℚ) : Oxide9 :=
  (List.zipWith Oxide9.scale ws oxs).foldr Oxide9.add Oxide9.zero

/-- Building one `validBlends` entry from a percentage combination
(`src/app.js` lines 1204-1225): weights are `percentage / 100`, the AFT is
computed on the blended oxides and cost/GCV are the percentage-weighted
sums divided by 100. -/
def mkCandidate (oxs : List Oxide9) (gcvs costs : List ℚ) (blend : List ℤ) : Candidate :=
  let weights := blend.map (fun x => (x : ℚ) / 100)
  let bo := blendOxides oxs weights
  { blend := blend
    predicted_aft := calculateAFT bo
    cost := (List.zipWith (fun (p : ℤ) c => (p : ℚ) * c) blend costs).sum / 100
    gcv := (List.zipWith (fun (p : ℤ) g => (p : ℚ) * g) blend gcvs).sum / 100
    blended_oxides := bo }

/-- `Math.min(...)` over a non-empty list (`0` on the empty list, which the
source never reaches thanks to its emptiness guard). -/
def listMin : List ℚ → ℚ
  | [] => 0
  | x :: xs => xs.foldl min x

/-- `Math.max(...)` over a non-empty list. -/
def listMax : List ℚ → ℚ
  | [] => 0
  | x :: xs => xs.foldl max x

/-- `aftVals = validBlends.map(b => b.predicted_aft)`. -/
def aftVals (l : List Candidate) : List ℚ := l.map (fun b => b.predicted_aft)

/-- `costVals = validBlends.map(b => b.cost)`. -/
def costVals (l : List Candidate) : List ℚ := l.map (fun b => b.cost)

/-- Per-candidate normalized AFT score (`src/app.js` line 1244): `0.5` when
`aftMax === aftMin`, else `(aft - aftMin) / (aftMax - aftMin)`. -/
def aftNorm (l : List Candidate) (b : Candidate) : ℚ :=
  if listMax (aftVals l) = listMin (aftVals l) then 0.5
  else (b.predicted_aft - listMin (aftVals l)) / (listMax (aftVals l) - listMin (aftVals l))

/-- Per-candidate normalized cost score (`src/app.js` line 1246): `0.5` when
`costMax === costMin`, else `(costMax - cost) / (costMax - costMin)` (higher
when cheaper). -/
def costNorm (l : List Candidate) (b : Candidate) : ℚ :=
  if listMax (costVals l) = listMin (costVals l) then 0.5
  else (listMax (costVals l) - b.cost) / (listMax (costVals l) - listMin (costVals l))

/-- `blendScores = validBlends.map(b => aftNorm + costNorm)`. -/
def blendScores (l : List Candidate) : List ℚ :=
  l.map (fun b => aftNorm l b + costNorm l b)

/-- `aftVals.indexOf(Math.max(...aftVals))`. -/
def indexOfBestAft (l : List Candidate) : ℕ := (aftVals l).indexOf (listMax (aftVals l))

/-- `costVals.indexOf(Math.min(...costVals))`. -/
def indexOfCheapest (l : List Candidate) : ℕ := (costVals l).indexOf (listMin (costVals l))

/-- `blendScores.indexOf(Math.max(...blendScores))`. -/
def indexOfBalanced (l : List Candidate) : ℕ := (blendScores l).indexOf (listMax (blendScores l))

/-- C5: when the global AFT maximum equals the minimum, every candidate's
`aftNorm` is exactly `0.5`, and likewise `costNorm` when the cost extremes
coincide, so the guarded normalization never divides by zero and
`balancedScore = aftNorm + costNorm` stays well-defined. -/
theorem norm_degenerate (l : List Candidate) (b : Candidate) (hb : b ∈ l) :
    (listMax (aftVals l) = listMin (aftVals l) → aftNorm l b = 0.5) ∧
    (listMax (costVals l) = listMin (costVals l) → costNorm l b = 0.5) :=
  ⟨fun h => by rw [aftNorm, if_pos h], fun h => by rw [costNorm, if_pos h]⟩

/-- A concrete candidate used in witnesses. -/
def candA : Candidate := ⟨[100, 0], 1300, 20, 5000, ⟨50, 10, 0, 0, 0, 0, 0, 0, 0⟩⟩

/-- A second concrete candidate used in witnesses. -/
def candB : Candidate := ⟨[0, 100], 1250, 10, 6000, ⟨30, 5, 0, 0, 0, 0, 0, 0, 0⟩⟩

/-- C5 witness: on the singleton candidate list `[candA]` the AFT and cost
extremes coincide and both norms evaluate to exactly `0.5`. -/
theorem norm_degenerate_witness :
    aftNorm [candA] candA = 0.5 ∧ costNorm [candA] candA = 0.5 :=
  ⟨(norm_degenerate [candA] candA (by simp)).1 (by decide),
    (norm_degenerate [candA] candA (by simp)).2 (by decide)⟩

/-- The running `foldl max` is at least its seed. -/
theorem le_foldl_max (t : List ℚ) : ∀ a : ℚ, a ≤ t.foldl max a := by
  induction t with
  | nil => intro a; exact le_refl a
  | cons y t ih => intro a; exact le_trans (le_max_left a y) (ih (max a y))

/-- Every element of the list is at most the running `foldl max`. -/
theorem mem_le_foldl_max (t : List ℚ) : ∀ (a x : ℚ), x ∈ t → x ≤ t.foldl max a := by
  induction t with
  | nil => intro a x hx; exact absurd hx (List.not_mem_nil x)
  | cons y t ih =>
    intro a x hx
    rcases List.mem_cons.mp hx with rfl | hx2
    · exact le_trans (le_max_right a x) (le_foldl_max t (max a x))
    · exact ih (max a y) x hx2

/-- The running `foldl max` is the seed or some element. -/
theorem foldl_max_mem (t : List ℚ) : ∀ a : ℚ, t.foldl max a = a ∨ t.foldl max a ∈ t := by
  induction t with
  | nil => intro a; exact Or.inl rfl
  | cons y t ih =>
    intro a
    rcases ih (max a y) with h | h
    · rcases max_choice a y with hm | hm
      · exact Or.inl (h.trans hm)
      · exact Or.inr (by rw [List.foldl_cons, h, hm]; exact List.mem_cons_self y t)
    · exact Or.inr (List.mem_cons_of_mem y h)

/-- The running `foldl min` is at most its seed. -/
theorem foldl_min_le (t : List ℚ) : ∀ a : ℚ, t.foldl min a ≤ a := by
  induction t with
  | nil => intro a; exact le_refl a
  | cons y t ih => intro a; exact le_trans (ih (min a y)) (min_le_left a y)

/-- The running `foldl min` is at most every element of the list. -/
theorem foldl_min_le_mem (t : List ℚ) : ∀ (a x : ℚ), x ∈ t → t.foldl min a ≤ x := by
  induction t with
  | nil => intro a x hx; exact absurd hx (List.not_mem_nil x)
  | cons y t ih =>
    intro a x hx
    rcases List.mem_cons.mp hx with rfl | hx2
    · exact le_trans (foldl_min_le t (min a x)) (min_le_right a x)
    · exact ih (min a y) x hx2

/-- The running `foldl min` is the seed or some element. -/
theorem foldl_min_mem (t : List ℚ) : ∀ a : ℚ, t.foldl min a = a ∨ t.foldl min a ∈ t := by
  induction t with
  | nil => intro a; exact Or.inl rfl
  | cons y t ih =>
    intro a
    rcases ih (min a y) with h | h
    · rcases min_choice a y with hm | hm
      · exact Or.inl (h.trans hm)
      · exact Or.inr (by rw [List.foldl_cons, h, hm]; exact List.mem_cons_self y t)
    · exact Or.inr (List.mem_cons_of_mem y h)

/-- On a non-empty list, `listMax` is an element of the list. -/
theorem listMax_mem (xs : List ℚ) (hne : xs ≠ []) : listMax xs ∈ xs := by
  cases xs with
  | nil => exact absurd rfl hne
  | cons x t =>
    rcases foldl_max_mem t x with h | h
    · rw [listMax, h]
      exact List.mem_cons_self x t
    · exact List.mem_cons_of_mem x h

/-- `listMax` bounds every element from above. -/
theorem le_listMax (xs : List ℚ) (x : ℚ) (hx : x ∈ xs) : x ≤ listMax xs := by
  cases xs with
  | nil => exact absurd hx (List.not_mem_nil x)
  | cons y t =>
    rcases List.mem_cons.mp hx with rfl | hx2
    · exact le_foldl_max t x
    · exact mem_le_foldl_max t y x hx2

/-- On a non-empty list, `listMin` is an element of the list. -/
theorem listMin_mem (xs : List ℚ) (hne : xs ≠ []) : listMin xs ∈ xs := by
  cases xs with
  | nil => exact absurd rfl hne
  | cons x t =>
    rcases foldl_min_mem t x with h | h
    · rw [listMin, h]
      exact List.mem_cons_self x t
    · exact List.mem_cons_of_mem x h

/-- `listMin` bounds every element from below. -/
theorem listMin_le (xs : List ℚ) (x : ℚ) (hx : x ∈ xs) : listMin xs ≤ x := by
  cases xs with
  | nil => exact absurd hx (List.not_mem_nil x)
  | cons y t =>
    rcases List.mem_cons.mp hx with rfl | hx2
    · exact foldl_min_le t x
    · exact foldl_min_le_mem t y x hx2

/-- Before the first occurrence found by `indexOf`, no element equals the
sought value. -/
theorem getD_ne_of_lt_indexOf (l : List ℚ) (a d : ℚ) :
    ∀ j, j < l.indexOf a → l.getD j d ≠ a := by
  induction l with
  | nil =>
    intro j hj
    exact absurd hj (by simp [List.indexOf])
  | cons x t ih =>
    intro j hj
    rw [List.indexOf_cons, cond_eq_if] at hj
    by_cases hxa : x = a
    · rw [if_pos (beq_iff_eq.mpr hxa)] at hj
      exact absurd hj (Nat.not_lt_zero j)
    · rw [if_neg (fun hb => hxa (beq_iff_eq.mp hb))] at hj
      cases j with
      | zero => simpa using hxa
      | succ k =>
        rw [List.getD_cons_succ]
        exact ih k (Nat.lt_of_succ_lt_succ hj)

/-- `indexOf` of the maximum: in range, value is the maximum, everything is
bounded by it, and everything strictly before it is strictly below it. -/
theorem argmax_spec (xs : List ℚ) (hne : xs ≠ []) :
    xs.indexOf (listMax xs) < xs.length ∧
    (∀ j < xs.length, xs.getD j 0 ≤ xs.getD (xs.indexOf (listMax xs)) 0) ∧
    (∀ j < xs.indexOf (listMax xs), xs.getD j 0 < xs.getD (xs.indexOf (listMax xs)) 0) := by
  have hmem : listMax xs ∈ xs := listMax_mem xs hne
  have hlt : xs.indexOf (listMax xs) < xs.length := List.indexOf_lt_length.mpr hmem
  have hval : xs.getD (xs.indexOf (listMax xs)) 0 = listMax xs := by
    rw [List.getD_eq_getElem _ _ hlt]
    exact List.getElem_indexOf hlt
  refine ⟨hlt, ?_, ?_⟩
  · intro j hj
    rw [hval, List.getD_eq_getElem _ _ hj]
    exact le_listMax xs _ (List.getElem_mem hj)
  · intro j hj
    have hne2 : xs.getD j 0 ≠ listMax xs := getD_ne_of_lt_indexOf xs (listMax xs) 0 j hj
    have hle : xs.getD j 0 ≤ listMax xs := by
      rw [List.getD_eq_getElem _ _ (hj.trans hlt)]
      exact le_listMax xs _ (List.getElem_mem (hj.trans hlt))
    rw [hval]
    exact lt_of_le_of_ne hle hne2

/-- `indexOf` of the minimum: in range, value is the minimum, it bounds
everything, and everything strictly before it is strictly above it. -/
theorem argmin_spec (xs : List ℚ) (hne : xs ≠ []) :
    xs.indexOf (listMin xs) < xs.length ∧
    (∀ j < xs.length, xs.getD (xs.indexOf (listMin xs)) 0 ≤ xs.getD j 0) ∧
    (∀ j < xs.indexOf (listMin xs), xs.getD (xs.indexOf (listMin xs)) 0 < xs.getD j 0) := by
  have hmem : listMin xs ∈ xs := listMin_mem xs hne
  have hlt : xs.indexOf (listMin xs) < xs.length := List.indexOf_lt_length.mpr hmem
  have hval : xs.getD (xs.indexOf (listMin xs)) 0 = listMin xs := by
    rw [List.getD_eq_getElem _ _ hlt]
    exact List.getElem_indexOf hlt
  refine ⟨hlt, ?_, ?_⟩
  · intro j hj
    rw [hval, List.getD_eq_getElem _ _ hj]
    exact listMin_le xs _ (List.getElem_mem hj)
  · intro j hj
    have hne2 : xs.getD j 0 ≠ listMin xs := getD_ne_of_lt_indexOf xs (listMin xs) 0 j hj
    have hle : listMin xs ≤ xs.getD j 0 := by
      rw [List.getD_eq_getElem _ _ (hj.trans hlt)]
      exact listMin_le xs _ (List.getElem_mem (hj.trans hlt))
    rw [hval]
    exact lt_of_le_of_ne hle (fun hc => hne2 hc.symm)

/-- The dummy candidate used as the out-of-range default of list indexing in
the statements below (never actually selected: the indices are in range). -/
def defaultCand : Candidate := ⟨[], 0, 0, 0, Oxide9.zero⟩

/-- Indexing a mapped metric agrees with mapping the indexed candidate. -/
theorem getD_map_metric (l : List Candidate) (f : Candidate → ℚ) (j : ℕ)
    (hj : j < l.length) : (l.map f).getD j 0 = f (l.getD j defaultCand) := by
  rw [List.getD_eq_getElem _ _ (by simpa using hj), List.getD_eq_getElem _ _ hj,
    List.getElem_map]

/-- Indexing `aftVals` agrees with taking the indexed candidate's AFT. -/
theorem getD_aftVals (l : List Candidate) (j : ℕ) (hj : j < l.length) :
    (aftVals l).getD j 0 = (l.getD j defaultCand).predicted_aft :=
  getD_map_metric l _ j hj

/-- Indexing `costVals` agrees with taking the indexed candidate's cost. -/
theorem getD_costVals (l : List Candidate) (j : ℕ) (hj : j < l.length) :
    (costVals l).getD j 0 = (l.getD j defaultCand).cost :=
  getD_map_metric l _ j hj

/-- C6: `indexOfBestAft` picks the candidate with the maximum
`predicted_aft`, `indexOfCheapest` the one with the minimum `cost`, and
`indexOfBalanced` the one with the maximum balanced score
(`aftNorm + costNorm`), each resolving ties by the first occurrence in
enumeration order (every strictly earlier candidate is strictly worse). -/
theorem select_best_cheapest_balanced (l : List Candidate) (hne : l ≠ []) :
    (indexOfBestAft l < l.length ∧
      (∀ j < l.length, (l.getD j defaultCand).predicted_aft ≤
        (l.getD (indexOfBestAft l) defaultCand).predicted_aft) ∧
      (∀ j < indexOfBestAft l, (l.getD j defaultCand).predicted_aft <
        (l.getD (indexOfBestAft l) defaultCand).predicted_aft)) ∧
    (indexOfCheapest l < l.length ∧
      (∀ j < l.length, (l.getD (indexOfCheapest l) defaultCand).cost ≤
        (l.getD j defaultCand).cost) ∧
      (∀ j < indexOfCheapest l, (l.getD (indexOfCheapest l) defaultCand).cost <
        (l.getD j defaultCand).cost)) ∧
    (indexOfBalanced l < l.length ∧
      (∀ j < l.length, (blendScores l).getD j 0 ≤ (blendScores l).getD (indexOfBalanced l) 0) ∧
      (∀ j < indexOfBalanced l, (blendScores l).getD j 0 <
        (blendScores l).getD (indexOfBalanced l) 0)) := by
  have hlen_aft : (aftVals l).length = l.length := List.length_map l _
  have hlen_cost : (costVals l).length = l.length := List.length_map l _
  have hlen_sc : (blendScores l).length = l.length := List.length_map l _
  have hne_aft : aftVals l ≠ [] := by
    intro hc
    exact hne (List.map_eq_nil_iff.mp hc)
  have hne_cost : costVals l ≠ [] := by
    intro hc
    exact hne (List.map_eq_nil_iff.mp hc)
  have hne_sc : blendScores l ≠ [] := by
    intro hc
    exact hne (List.map_eq_nil_iff.mp hc)
  obtain ⟨ha1, ha2, ha3⟩ := argmax_spec (aftVals l) hne_aft
  obtain ⟨hc1, hc2, hc3⟩ := argmin_spec (costVals l) hne_cost
  obtain ⟨hs1, hs2, hs3⟩ := argmax_spec (blendScores l) hne_sc
  simp only [indexOfBestAft, indexOfCheapest, indexOfBalanced]
  refine ⟨⟨?_, ?_, ?_⟩, ⟨?_, ?_, ?_⟩, ⟨?_, ?_, ?_⟩⟩
  · omega
  · intro j hj
    have := ha2 j (by omega)
    rwa [getD_aftVals l j hj, getD_aftVals l _ (by omega)] at this
  · intro j hj
    have := ha3 j hj
    rwa [getD_aftVals l j (by omega), getD_aftVals l _ (by omega)] at this
  · omega
  · intro j hj
    have := hc2 j (by omega)
    rwa [getD_costVals l j hj, getD_costVals l _ (by omega)] at this
  · intro j hj
    have := hc3 j hj
    rwa [getD_costVals l j (by omega), getD_costVals l _ (by omega)] at this
  · omega
  · intro j hj
    exact hs2 j (by omega)
  · exact hs3

example : indexOfBestAft [candA, candB] = 0 := by decide
example : indexOfCheapest [candA, candB] = 1 := by decide

/-- C6 witness: on the two-candidate list `[candA, candB]` the best-AFT
index is in range (the selection theorem applies). -/
theorem select_best_cheapest_balanced_witness :
    indexOfBestAft [candA, candB] < ([candA, candB] : List Candidate).length :=
  (select_best_cheapest_balanced [candA, candB] (by simp)).1.1

/-- The bounds sanitizer of the live route (`src/app.js` lines 1148-1155):
`Number(b.min)` not finite defaults to 0 and `Number(b.max)` to 100 (the
`none` case), the lower bound is clamped into `[0,100]`, the upper bound is
clamped to at most 100 and raised to at least the sanitized lower bound,
and both are rounded (`Math.round`, i.e. `⌊x + 1/2⌋`). -/
def sanitizeBounds (mino maxo : Option ℚ) : ℤ × ℤ :=
  let mn := mino.getD 0
  let mx0 := maxo.getD 100
  let mm := max 0 (min 100 mn)
  let mx := max mm (min 100 mx0)
  (round mm, round mx)

/-- `round` is monotone (via `round x = ⌊x + 1/2⌋`). -/
theorem round_mono_rat {x y : ℚ} (h : x ≤ y) : round x ≤ round y := by
  rw [round_eq, round_eq]
  exact Int.floor_le_floor (by linarith)

/-- C10: whatever the supplied `min`/`max` fields are (missing, non-numeric,
negative, above 100, fractional), the sanitized integer bounds satisfy
`0 ≤ min' ≤ max' ≤ 100`; a missing/non-numeric `min` behaves as 0 and a
missing/non-numeric `max` as 100. -/
theorem sanitizeBounds_invariant (mino maxo : Option ℚ) :
    0 ≤ (sanitizeBounds mino maxo).1 ∧
    (sanitizeBounds mino maxo).1 ≤ (sanitizeBounds mino maxo).2 ∧
    (sanitizeBounds mino maxo).2 ≤ 100 ∧
    sanitizeBounds none maxo = sanitizeBounds (some 0) maxo ∧
    sanitizeBounds mino none = sanitizeBounds mino (some 100) := by
  have h1 : (sanitizeBounds mino maxo).1 = round (max 0 (min 100 (mino.getD 0))) := rfl
  have h2 : (sanitizeBounds mino maxo).2 =
      round (max (max 0 (min 100 (mino.getD 0))) (min 100 (maxo.getD 100))) := rfl
  have ha0 : (0 : ℚ) ≤ max 0 (min 100 (mino.getD 0)) := le_max_left _ _
  have ha100 : max 0 (min 100 (mino.getD 0)) ≤ 100 :=
    max_le (by norm_num) (min_le_left _ _)
  have hac : max 0 (min 100 (mino.getD 0)) ≤
      max (max 0 (min 100 (mino.getD 0))) (min 100 (maxo.getD 100)) := le_max_left _ _
  have hc100 : max (max 0 (min 100 (mino.getD 0))) (min 100 (maxo.getD 100)) ≤ 100 :=
    max_le ha100 (min_le_left _ _)
  refine ⟨?_, ?_, ?_, rfl, rfl⟩
  · rw [h1]
    have := round_mono_rat ha0
    rwa [round_zero] at this
  · rw [h1, h2]
    exact round_mono_rat hac
  · rw [h2]
    have := round_mono_rat hc100
    rwa [show round (100 : ℚ) = 100 from round_ofNat 100] at this

/-- C8 counterexample: for the inverted pair `min = 80, max = 20` the
sanitizer does NOT return the reordered pair `(20, 80)`. -/
theorem sanitizeBounds_inverted_cex : sanitizeBounds (some 80) (some 20) ≠ (20, 80) := by
  have hval : sanitizeBounds (some 80) (some 20) = (round (80 : ℚ), round (80 : ℚ)) := by
    show (round (max 0 (min 100 (80 : ℚ))),
      round (max (max 0 (min 100 (80 : ℚ))) (min 100 20))) = _
    norm_num
  rw [hval, show round (80 : ℚ) = 80 from round_ofNat 80]
  decide

/-- C8 (amended): for every inverted pair (`max ≤ min`, whatever the values
are), the sanitizer does not reorder: it clamps `min` into `[0,100]`, keeps
that clamped `min` as the lower bound and raises the upper bound up to it,
so both bounds used collapse to the rounded clamped `min`. -/
theorem sanitizeBounds_inverted (mn mx : ℚ) (hinv : mx ≤ mn) :
    sanitizeBounds (some mn) (some mx) =
      (round (max 0 (min 100 mn)), round (max 0 (min 100 mn))) := by
  show (round (max 0 (min 100 mn)), round (max (max 0 (min 100 mn)) (min 100 mx))) = _
  have h : min 100 mx ≤ max 0 (min 100 mn) :=
    le_trans (min_le_min (le_refl 100) hinv) (le_max_right 0 (min 100 mn))
  rw [max_eq_left h]

/-- C8 witness: the inverted pair `min = 80, max = 20` produces `(80, 80)` —
the original `min` at both ends, not the sorted pair. -/
theorem sanitizeBounds_inverted_witness : sanitizeBounds (some 80) (some 20) = (80, 80) := by
  rw [sanitizeBounds_inverted 80 20 (by norm_num)]
  norm_num [round_ofNat]

/-- The oxide-property bag of one blend entry, after `Number(...)` coercion:
`none` models a missing or non-numeric field. -/
structure OxideProps where
  SiO2 : Option ℚ
  Al2O3 : Option ℚ
  Fe2O3 : Option ℚ
  CaO : Option ℚ
  MgO : Option ℚ
  Na2O : Option ℚ
  K2O : Option ℚ
  SO3 : Option ℚ
  TiO2 : Option ℚ
  GCV : Option ℚ

/-- The sanitized oxide vector (`src/app.js` lines 1141-1145): every missing
or non-finite oxide value becomes 0. -/
def OxideProps.vec (p : OxideProps) : Oxide9 :=
  ⟨p.SiO2.getD 0, p.Al2O3.getD 0, p.Fe2O3.getD 0, p.CaO.getD 0, p.MgO.getD 0,
    p.Na2O.getD 0, p.K2O.getD 0, p.SO3.getD 0, p.TiO2.getD 0⟩

/-- One entry of the request's `blends` array. -/
structure BlendInput where
  coal : String
  props : OxideProps
  min : Option ℚ
  max : Option ℚ
  current : Option ℚ
  cost : Option ℚ

/-- The `current_blend` response object's shape (`src/app.js` line 1271):
it carries no `blended_oxides` field, and its `blend` entries are the raw
(possibly fractional) `current` values. -/
structure CurrentBlend where
  blend : List ℚ
  predicted_aft : ℚ
  gcv : ℚ
  cost : ℚ
deriving DecidableEq

/-- The `current_blend` computation of the live route (`src/app.js` lines
1259-1271): `blend` echoes `Number(b.current) || 0`, the oxides are blended
with weights `current / 100` and fed to `calculateAFT`, and GCV/cost are
`Σ current_i · value_i / 100`.  No check or renormalization of
`Σ current_i` happens anywhere. -/
def currentBlend (blends : List BlendInput) : CurrentBlend :=
  { blend := blends.map (fun b => b.current.getD 0)
    predicted_aft := calculateAFT (blendOxides (blends.map (fun b => b.props.vec))
      (blends.map (fun b => b.current.getD 0 / 100)))
    gcv := (List.zipWith (fun (c : ℚ) g => c * g) (blends.map (fun b => b.current.getD 0))
      (blends.map (fun b => b.props.GCV.getD 0))).sum / 100
    cost := (List.zipWith (fun (c : ℚ) cp => c * cp) (blends.map (fun b => b.current.getD 0))
      (blends.map (fun b => b.cost.getD 0))).sum / 100 }

/-- The spec's current-mix projector (spec §4.4 and §3 `BlendCandidate`):
the weighted projection that uses each coal's `currentPercent / 100` as its
weight, with cost and heat value as weighted sums with those weights. -/
def currentBlendSpec (blends : List BlendInput) : CurrentBlend :=
  { blend := blends.map (fun b => b.current.getD 0)
    predicted_aft := calculateAFT (blendOxides (blends.map (fun b => b.props.vec))
      ((blends.map (fun b => b.current.getD 0)).map (fun c => c / 100)))
    gcv := (List.zipWith (fun (w : ℚ) g => w * g)
      ((blends.map (fun b => b.current.getD 0)).map (fun c => c / 100))
      (blends.map (fun b => b.props.GCV.getD 0))).sum
    cost := (List.zipWith (fun (w : ℚ) cp => w * cp)
      ((blends.map (fun b => b.current.getD 0)).map (fun c => c / 100))
      (blends.map (fun b => b.cost.getD 0))).sum }

/-- Dividing a zipped product-sum by 100 is weighting by `c / 100`. -/
theorem zipWith_mul_div_sum (cs gs : List ℚ) :
    (List.zipWith (fun c g => c * g) cs gs).sum / 100 =
    (List.zipWith (fun c g => c / 100 * g) cs gs).sum := by
  induction cs generalizing gs with
  | nil => simp
  | cons c cs ih =>
    cases gs with
    | nil => simp
    | cons g gs =>
      simp only [List.zipWith_cons_cons, List.sum_cons]
      rw [← ih gs]
      ring

/-- Summing `current_i * value_i` then dividing by 100 equals weighting each
term by `current_i / 100` first. -/
theorem zip_cur_div_sum (f : BlendInput → ℚ) (blends : List BlendInput) :
    (List.zipWith (fun (c : ℚ) g => c * g) (blends.map (fun b => b.current.getD 0))
      (blends.map f)).sum / 100 =
    (List.zipWith (fun (w : ℚ) g => w * g)
      ((blends.map (fun b => b.current.getD 0)).map (fun c => c / 100))
      (blends.map f)).sum := by
  induction blends with
  | nil => simp
  | cons b bs ih =>
    simp only [List.map_cons, List.zipWith_cons_cons, List.sum_cons]
    rw [← ih]
    ring

/-- C9: the `current_blend` computed by the live route is exactly the spec's
weighted projection with weights `currentPercent / 100` — for every input,
with no hypothesis that the `current` values sum to 100, and with no
renormalization when they do not. -/
theorem currentBlend_eq_spec (blends : List BlendInput) :
    currentBlend blends = currentBlendSpec blends := by
  have haft : blends.map (fun b => b.current.getD 0 / 100) =
      (blends.map (fun b => b.current.getD 0)).map (fun c => c / 100) := by
    rw [List.map_map]
    rfl
  unfold currentBlend currentBlendSpec
  rw [haft, zip_cur_div_sum (fun b => b.props.GCV.getD 0) blends,
    zip_cur_div_sum (fun b => b.cost.getD 0) blends]

/-- Outcome of one `/optimize` call (`src/app.js` lines 1131-1293), HTTP
codes abstracted: 400 for a missing / non-array / empty `blends`, 404 when
no valid blend exists, and the success payload otherwise. -/
inductive OptResponse where
  | badRequest
  | notFound
  | ok (best cheapest balanced : Candidate) (current : CurrentBlend)
      (perCoal : List (String × ℚ))

/-- The scoring/selection phase once `validBlends` is materialized
(`src/app.js` lines 1228-1293). -/
def optimizeValid (blends : List BlendInput) (validBlends : List Candidate) : OptResponse :=
  if validBlends.isEmpty then OptResponse.notFound
  else
    OptResponse.ok (validBlends.getD (indexOfBestAft validBlends) defaultCand)
      (validBlends.getD (indexOfCheapest validBlends) defaultCand)
      (validBlends.getD (indexOfBalanced validBlends) defaultCand)
      (currentBlend blends)
      (blends.map (fun b => (b.coal, calculateAFT b.props.vec)))

/-- The whole `/optimize` computation (auth/trial bookkeeping aside):
validate the `blends` array (`none` models a missing or non-array field),
sanitize, enumerate and evaluate, then select. -/
def optimize (input : Option (List BlendInput)) : OptResponse :=
  match input with
  | none => OptResponse.badRequest
  | some blends =>
    if blends.isEmpty then OptResponse.badRequest
    else
      optimizeValid blends
        ((generateCombinations (blends.map (fun b => sanitizeBounds b.min b.max))).map
          (mkCandidate (blends.map (fun b => b.props.vec))
            (blends.map (fun b => b.props.GCV.getD 0))
            (blends.map (fun b => b.cost.getD 0))))

/-- C7: a missing / non-array / empty `blends` list fails fast with the 400
"Invalid blend data" outcome before any enumeration, and whenever the
enumerator yields no combination (e.g. two coals fixed at 60% each), the
optimizer reports the distinct 404 "No valid blends found" outcome instead
of raising a computation error. -/
theorem optimize_error_handling :
    optimize none = OptResponse.badRequest ∧
    optimize (some []) = OptResponse.badRequest ∧
    ∀ blends : List BlendInput, blends ≠ [] →
      generateCombinations (blends.map (fun b => sanitizeBounds b.min b.max)) = [] →
      optimize (some blends) = OptResponse.notFound := by
  refine ⟨rfl, rfl, ?_⟩
  intro blends hne hempty
  simp only [optimize]
  rw [if_neg (by simpa [List.isEmpty_iff] using hne), hempty]
  rfl

/-- A concrete coal fixed at exactly 60% (min = max = 60), used in the C7
witness: two of them cannot sum to 100. -/
def coalSixty : BlendInput :=
  ⟨"A", ⟨none, none, none, none, none, none, none, none, none, none⟩,
    some 60, some 60, some 50, some 10⟩

/-- C7 witness: two coals fixed at 60% each admit no combination summing to
100, and the optimizer reports the 404 outcome. -/
theorem optimize_error_handling_witness :
    optimize (some [coalSixty, coalSixty]) = OptResponse.notFound := by
  refine optimize_error_handling.2.2 [coalSixty, coalSixty] (List.cons_ne_nil _ _) ?_
  have hs : sanitizeBounds (some 60) (some 60) = (60, 60) := by
    show (round (max 0 (min 100 (60 : ℚ))),
      round (max (max 0 (min 100 (60 : ℚ))) (min 100 60))) = _
    norm_num [round_ofNat]
  show generateCombinations
      [sanitizeBounds (some 60) (some 60), sanitizeBounds (some 60) (some 60)] = []
  rw [hs]
  decide
